import Mathlib

/-
  Verification development for the mach-engine limit order book.

  The embedding below mirrors, definition by definition, the Go sources:
  `internal/domain/order/order.go` (the `Order` entity with `Fill`, `Cancel`,
  `RemainingQuantity`) and the `orderbook` package (the `OrderBook` with
  `AddOrder`, `tryMatch`, `match`, `processLevelMatch`, `cleanupEmptyLevels`,
  `CancelOrder`, `GetOrder`, `GetBestBid`, `GetBestAsk`).

  Modelling conventions:
  - Go `float64` prices and quantities become exact rationals; the claims under
    scrutiny do not depend on floating-point rounding.
  - Go heap pointers become order ids plus an explicit heap (`Store`): the
    doubly linked price-level lists hold ids, and every mutation through a
    pointer becomes a `Store.set` at that id.  A lookup through an id that is
    not in the store corresponds to dereferencing a dangling pointer, which
    cannot happen in the Go program; `Store.getO` returns a harmless default in
    that case (with the `id` field set to the looked-up key, as a Go object
    reached through the book always satisfies).
  - `time.Now()` becomes a logical clock: a `Nat` tick passed to each mutator,
    incremented once per public operation.
  - The two unbounded `for` loops (`match` and `processLevelMatch`) take fuel;
    `none` means the fuel ran out before the loop exited.  All theorems about
    full executions quantify over the fuel.
-/

namespace MachEngine

inductive Side
  | buy
  | sell
deriving DecidableEq

inductive Status
  | new
  | partialFill
  | filled
  | cancelled
deriving DecidableEq

/-- `order.Order` from `internal/domain/order/order.go`. -/
structure Order where
  id : Nat
  side : Side
  symbol : String
  price : ℚ
  quantity : ℚ
  filled : ℚ
  status : Status
  createdAt : Nat
  updatedAt : Nat
deriving DecidableEq

inductive FillErr
  | invalidFill
  | alreadyCancelled
  | overfill
deriving DecidableEq

/-- `Order.RemainingQuantity`. -/
def Order.remaining (o : Order) : ℚ := o.quantity - o.filled

/-- `Order.Fill` from `order.go`.  Returns the order as the Go method leaves it
in memory together with the returned error.  Note that the Go code adds the
quantity and stamps `UpdatedAt` before the overfill check, so on the overfill
error path the mutation has already happened. -/
def Order.fill (o : Order) (q : ℚ) (now : Nat) : Order × Option FillErr :=
  if q ≤ 0 then (o, some .invalidFill)
  else if o.status = .cancelled then (o, some .alreadyCancelled)
  else if o.quantity < o.filled + q then
    ({ o with filled := o.filled + q, updatedAt := now }, some .overfill)
  else if o.filled + q = o.quantity then
    ({ o with filled := o.filled + q, status := .filled, updatedAt := now }, none)
  else
    ({ o with filled := o.filled + q, status := .partialFill, updatedAt := now }, none)

/-- `Order.Cancel` from `order.go`: fails only on an already-Filled order. -/
def Order.cancel (o : Order) (now : Nat) : Order × Bool :=
  if o.status = .filled then (o, false)
  else ({ o with status := .cancelled, updatedAt := now }, true)

/-- The heap: order ids to order values (Go objects reached via pointers). -/
abbrev Store := List (Nat × Order)

def Store.get : Store → Nat → Option Order
  | [], _ => none
  | p :: st, k => if p.1 = k then some p.2 else Store.get st k

def Store.set (st : Store) (k : Nat) (v : Order) : Store :=
  (k, v) :: st.filter (fun p => ¬ (p.1 = k))

/-- Unreachable fallback for a dangling id (see the header comment). -/
def Store.getO (st : Store) (k : Nat) : Order :=
  (st.get k).getD ⟨k, .buy, "", 1, 1, 0, .new, 0, 0⟩

/-- `PriceLevel`: one price with its FIFO queue of orders (by id). -/
structure Level where
  price : ℚ
  orders : List Nat
deriving DecidableEq

/-- The tail of `findOrCreateBuyLevel` followed by the append in `addBuyOrder`:
walk the descending list while `price < current.Next.Price`; then append to the
current level if its price matches, else splice a new level after it. -/
def walkBuy (p : ℚ) (oid : Nat) (cur : Level) : List Level → List Level
  | nxt :: rest =>
    if p < nxt.price then cur :: walkBuy p oid nxt rest
    else if cur.price = p then { cur with orders := cur.orders ++ [oid] } :: nxt :: rest
    else cur :: ⟨p, [oid]⟩ :: nxt :: rest
  | [] =>
    if cur.price = p then [{ cur with orders := cur.orders ++ [oid] }]
    else [cur, ⟨p, [oid]⟩]

/-- `addBuyOrder` (with `findOrCreateBuyLevel` inlined). -/
def addLevelBuy (ls : List Level) (p : ℚ) (oid : Nat) : List Level :=
  match ls with
  | [] => [⟨p, [oid]⟩]
  | l :: rest => if p > l.price then ⟨p, [oid]⟩ :: l :: rest else walkBuy p oid l rest

/-- Ascending-side analogue of `walkBuy` (`findOrCreateSellLevel`). -/
def walkSell (p : ℚ) (oid : Nat) (cur : Level) : List Level → List Level
  | nxt :: rest =>
    if p > nxt.price then cur :: walkSell p oid nxt rest
    else if cur.price = p then { cur with orders := cur.orders ++ [oid] } :: nxt :: rest
    else cur :: ⟨p, [oid]⟩ :: nxt :: rest
  | [] =>
    if cur.price = p then [{ cur with orders := cur.orders ++ [oid] }]
    else [cur, ⟨p, [oid]⟩]

/-- `addSellOrder` (with `findOrCreateSellLevel` inlined). -/
def addLevelSell (ls : List Level) (p : ℚ) (oid : Nat) : List Level :=
  match ls with
  | [] => [⟨p, [oid]⟩]
  | l :: rest => if p < l.price then ⟨p, [oid]⟩ :: l :: rest else walkSell p oid l rest

/-- Go map membership list for `ob.orders` (only membership is observable). -/
def insertId (om : List Nat) (oid : Nat) : List Nat :=
  if oid ∈ om then om else om ++ [oid]

def eraseId (om : List Nat) (oid : Nat) : List Nat :=
  om.filter (fun k => ¬ (k = oid))

/-- State threaded through `tryMatch`: the incoming order (a Go local), the
heap, the id map `ob.orders`, and whether a fill error was returned. -/
structure TMState where
  o : Order
  st : Store
  om : List Nat
  err : Bool
deriving DecidableEq

/-- Inner loop of `tryMatch`: `for _, restingOrder := range matchingLevels.Orders`.
The incoming order is a distinct Go object from every resting order, so it is
threaded separately from the heap. -/
def tryInner (now : Nat) (s : TMState) : List Nat → TMState
  | [] => s
  | rid :: rest =>
    match s.st.get rid with
    | none => tryInner now s rest
    | some r =>
      if r.status = .cancelled then tryInner now s rest
      else
        let mq := min s.o.remaining r.remaining
        if mq ≤ 0 then tryInner now s rest
        else
          match s.o.fill mq now with
          | (o1, some _) => { s with o := o1, err := true }
          | (o1, none) =>
            match r.fill mq now with
            | (r1, some _) => { o := o1, st := s.st.set rid r1, om := s.om, err := true }
            | (r1, none) =>
              let st1 := s.st.set rid r1
              let om1 := if r1.status = .filled then eraseId s.om rid else s.om
              let s1 : TMState := { o := o1, st := st1, om := om1, err := false }
              if o1.status = .filled then s1 else tryInner now s1 rest

/-- Outer loop of `tryMatch`: walk the opposite side's levels while the order
is unfilled and the level price is still crossable. -/
def tryLevels (now : Nat) (aggr : Bool) (s : TMState) : List Level → TMState
  | [] => s
  | l :: rest =>
    if s.o.status = .filled then s
    else if (aggr ∧ s.o.price < l.price) ∨ (¬ aggr ∧ s.o.price > l.price) then s
    else
      let s1 := tryInner now s l.orders
      if s1.err then s1 else tryLevels now aggr s1 rest

/-- `processLevelMatch`: drain the two head queues; each iteration fills both
heads by `min` of the remainders (errors discarded, as in Go) and pops a head
exactly when its status became Filled.  The second head is re-read from the
heap after the first write, mirroring Go pointer aliasing. -/
def plmLoop (now : Nat) : Nat → List Nat → List Nat → Store →
    Option (List Nat × List Nat × Store)
  | 0, _, _, _ => none
  | _ + 1, [], sq, st => some ([], sq, st)
  | _ + 1, b0 :: btl, [], st => some (b0 :: btl, [], st)
  | fuel + 1, b0 :: btl, s0 :: stl, st =>
    let buy := st.getO b0
    let sell := st.getO s0
    let mq := min buy.remaining sell.remaining
    let buy1 := (buy.fill mq now).1
    let st1 := st.set b0 buy1
    let sell1 := ((st1.getO s0).fill mq now).1
    let st2 := st1.set s0 sell1
    let bq1 := if buy1.status = .filled then btl else b0 :: btl
    let sq1 := if sell1.status = .filled then stl else s0 :: stl
    plmLoop now fuel bq1 sq1 st2

/-- `cleanupEmptyLevels` (one side): drop empty levels from the front. -/
def cleanup : List Level → List Level
  | [] => []
  | l :: rest => if l.orders = [] then cleanup rest else l :: rest

/-- The book state seen by `match`. -/
structure Core where
  buyLevels : List Level
  sellLevels : List Level
  store : Store
deriving DecidableEq

/-- `match`: while both sides are non-empty and the best prices cross, run
`processLevelMatch` on the two best levels, then `cleanupEmptyLevels`. -/
def matchLoop (now pfuel : Nat) : Nat → List Level → List Level → Store → Option Core
  | 0, _, _, _ => none
  | _ + 1, [], sls, st => some ⟨[], sls, st⟩
  | _ + 1, bl :: btl, [], st => some ⟨bl :: btl, [], st⟩
  | fuel + 1, bl :: btl, sl :: stl, st =>
    if bl.price < sl.price then some ⟨bl :: btl, sl :: stl, st⟩
    else
      match plmLoop now pfuel bl.orders sl.orders st with
      | none => none
      | some (bq, sq, st1) =>
        matchLoop now pfuel fuel
          (cleanup (⟨bl.price, bq⟩ :: btl)) (cleanup (⟨sl.price, sq⟩ :: stl)) st1

/-- `OrderBook`: per-symbol book plus the id heap; `nextId` and `clock` model
the external uuid generator and `time.Now()`. -/
structure Book where
  symbol : String
  buyLevels : List Level
  sellLevels : List Level
  om : List Nat
  store : Store
  nextId : Nat
  clock : Nat
deriving DecidableEq

def emptyBook (sym : String) : Book := ⟨sym, [], [], [], [], 0, 0⟩

inductive AddErr
  | invalidSymbol
  | fillErr
deriving DecidableEq

/-- The `switch o.Side` at the top of `tryMatch`: the opposite side's levels. -/
def oppLevels (b : Book) : Side → List Level
  | .buy => b.sellLevels
  | .sell => b.buyLevels

/-- `OrderBook.AddOrder`: symbol check, `tryMatch`, conditional insertion of
the remainder, then `match`.  The heap retains the incoming order in its final
state in every non-error branch (the Go object exists regardless of whether it
was registered in the book's indices). -/
def AddOrder (fuel now : Nat) (b : Book) (o : Order) : Option (Book × Option AddErr) :=
  if o.symbol ≠ b.symbol then some (b, some .invalidSymbol)
  else
    let s := tryLevels now (o.side = .buy) ⟨o, b.store, b.om, false⟩ (oppLevels b o.side)
    if s.err then some ({ b with store := s.st, om := s.om }, some .fillErr)
    else
      let o1 := s.o
      let (bl, sl, om1) :=
        if o1.status ≠ .filled then
          match o1.side with
          | .buy => (addLevelBuy b.buyLevels o1.price o1.id, b.sellLevels, insertId s.om o1.id)
          | .sell => (b.buyLevels, addLevelSell b.sellLevels o1.price o1.id, insertId s.om o1.id)
        else (b.buyLevels, b.sellLevels, s.om)
      let st1 := s.st.set o1.id o1
      match matchLoop now fuel fuel bl sl st1 with
      | none => none
      | some c =>
        some ({ b with buyLevels := c.buyLevels, sellLevels := c.sellLevels,
                       om := om1, store := c.store }, none)

inductive CancelErr
  | orderNotFound
  | alreadyFilled
deriving DecidableEq

/-- `OrderBook.CancelOrder`: look up in `ob.orders`, `Cancel()`, and on success
delete the id from the map.  The order is not removed from its level queue. -/
def CancelOrder (now : Nat) (b : Book) (oid : Nat) : Book × Option CancelErr :=
  if oid ∈ b.om then
    match b.store.get oid with
    | some o =>
      match o.cancel now with
      | (_, false) => (b, some .alreadyFilled)
      | (o1, true) =>
        ({ b with store := b.store.set oid o1, om := eraseId b.om oid }, none)
    | none => (b, some .orderNotFound)
  else (b, some .orderNotFound)

/-- `findOrder` inner scan: compare each queued object's `ID` field. -/
def findInQueue (st : Store) (oid : Nat) : List Nat → Option Order
  | [] => none
  | k :: rest =>
    let r := st.getO k
    if r.id = oid then some r else findInQueue st oid rest

/-- `findOrder`: walk the levels of one side. -/
def findOrderLvls (st : Store) (oid : Nat) : List Level → Option Order
  | [] => none
  | l :: rest =>
    match findInQueue st oid l.orders with
    | some r => some r
    | none => findOrderLvls st oid rest

/-- `OrderBook.GetOrder`: scan the buy levels then the sell levels; the
`ob.orders` map is not consulted. -/
def GetOrder (b : Book) (oid : Nat) : Option Order :=
  match findOrderLvls b.store oid b.buyLevels with
  | some r => some r
  | none => findOrderLvls b.store oid b.sellLevels

/-- Aggregate `RemainingQuantity` over one level's queue. -/
def levelQty (st : Store) (l : Level) : ℚ :=
  l.orders.foldl (fun a k => a + (st.getO k).remaining) 0

/-- `OrderBook.GetBestBid`: `none` models the `no bids available` error. -/
def GetBestBid (b : Book) : Option (ℚ × ℚ) :=
  match b.buyLevels with
  | [] => none
  | l :: _ => if l.orders = [] then none else some (l.price, levelQty b.store l)

/-- `OrderBook.GetBestAsk`. -/
def GetBestAsk (b : Book) : Option (ℚ × ℚ) :=
  match b.sellLevels with
  | [] => none
  | l :: _ => if l.orders = [] then none else some (l.price, levelQty b.store l)

/-- One caller-visible operation: place a freshly constructed order (the
`NewOrder` factory validates price and quantity and assigns a fresh id), or
cancel by id. -/
inductive Op
  | add (side : Side) (symbol : String) (price qty : ℚ)
  | cancel (oid : Nat)
deriving DecidableEq

/-- Run one operation.  A `NewOrder` rejection (non-positive price/quantity)
never reaches the book; an `AddOrder` error is returned to the caller with the
book left as the Go code leaves it. -/
def step (fuel : Nat) (b : Book) : Op → Option Book
  | .add side sym p q =>
    if p ≤ 0 ∨ q ≤ 0 then some b
    else
      let o : Order := ⟨b.nextId, side, sym, p, q, 0, .new, b.clock, b.clock⟩
      match AddOrder fuel b.clock b o with
      | none => none
      | some (b1, _) => some { b1 with nextId := b.nextId + 1, clock := b.clock + 1 }
  | .cancel oid =>
    some { (CancelOrder b.clock b oid).1 with clock := b.clock + 1 }

def runOps (fuel : Nat) (b : Book) : List Op → Option Book
  | [] => some b
  | op :: ops =>
    match step fuel b op with
    | none => none
    | some b1 => runOps fuel b1 ops

/-- Run a sequence of operations against a fresh book for `sym`. -/
def run (fuel : Nat) (sym : String) (ops : List Op) : Option Book :=
  runOps fuel (emptyBook sym) ops

/-! ### Invariant predicates -/

/-- Per-order well-formedness: bounded fill and the status/fill correspondence. -/
def OrderInv (o : Order) : Prop :=
  0 ≤ o.filled ∧ o.filled ≤ o.quantity ∧ 0 < o.quantity ∧
    (o.status = .filled ↔ o.filled = o.quantity)

instance (o : Order) : Decidable (OrderInv o) := by
  unfold OrderInv; infer_instance

def StoreInv (st : Store) : Prop := ∀ k o, st.get k = some o → OrderInv o

/-- Heap consistency: the stored object's `id` field is its key. -/
def IdC (st : Store) : Prop := ∀ k o, st.get k = some o → o.id = k

def IdsLt (n : Nat) (st : Store) : Prop := ∀ k, (st.get k).isSome → k < n

def InLvls (ls : List Level) (k : Nat) : Prop := ∃ l ∈ ls, k ∈ l.orders

def LvlLt (n : Nat) (ls : List Level) : Prop := ∀ k, InLvls ls k → k < n

/-- Cancelled orders are never touched again: their heap entry survives. -/
def Frozen (st st' : Store) : Prop :=
  ∀ k o, st.get k = some o → o.status = .cancelled → st'.get k = some o

/-- No step manufactures a cancelled entry: one in `st'` was already in `st`. -/
def NoNewCancel (st st' : Store) : Prop :=
  ∀ k o, st'.get k = some o → o.status = .cancelled → st.get k = some o

/-- A cancelled order has been deleted from the `ob.orders` map. -/
def NoCancelOm (st : Store) (om : List Nat) : Prop :=
  ∀ k o, st.get k = some o → o.status = .cancelled → k ∉ om

def NoCrossL : List Level → List Level → Prop
  | bl :: _, sl :: _ => bl.price < sl.price
  | [], _ => True
  | _ :: _, [] => True

instance : ∀ (bls sls : List Level), Decidable (NoCrossL bls sls)
  | bl :: _, sl :: _ => inferInstanceAs (Decidable (bl.price < sl.price))
  | [], _ => isTrue True.intro
  | _ :: _, [] => isTrue True.intro

def NoCross (b : Book) : Prop := NoCrossL b.buyLevels b.sellLevels

instance (b : Book) : Decidable (NoCross b) := by
  unfold NoCross; infer_instance

/-! ### Store lemmas -/

theorem Store.get_set_self (st : Store) (k : Nat) (v : Order) :
    (st.set k v).get k = some v := by
  simp [Store.get, Store.set]

theorem Store.get_filter_ne (st : Store) (k j : Nat) (h : j ≠ k) :
    Store.get (st.filter (fun p => ¬ (p.1 = k))) j = st.get j := by
  induction st with
  | nil => rfl
  | cons a st ih =>
    rw [List.filter_cons]
    by_cases hak : a.1 = k
    · rw [if_neg (by simp [hak])]
      rw [ih]
      show _ = Store.get (a :: st) j
      rw [Store.get, if_neg (fun hj => h (hj.symm.trans hak))]
    · rw [if_pos (by simp [hak])]
      show Store.get (a :: _) j = Store.get (a :: st) j
      rw [Store.get, Store.get]
      by_cases haj : a.1 = j
      · rw [if_pos haj, if_pos haj]
      · rw [if_neg haj, if_neg haj, ih]

theorem Store.get_set_ne (st : Store) (k j : Nat) (v : Order) (h : j ≠ k) :
    (st.set k v).get j = st.get j := by
  show Store.get ((k, v) :: _) j = _
  rw [Store.get, if_neg (fun hj => h hj.symm)]
  exact Store.get_filter_ne st k j h

theorem StoreInv_set {st : Store} {k : Nat} {v : Order}
    (hs : StoreInv st) (hv : OrderInv v) : StoreInv (st.set k v) := by
  intro j o hj
  by_cases hjk : j = k
  · subst hjk; rw [Store.get_set_self] at hj; cases hj; exact hv
  · rw [Store.get_set_ne st k j v hjk] at hj; exact hs j o hj

theorem IdC_set {st : Store} {k : Nat} {v : Order}
    (hs : IdC st) (hv : v.id = k) : IdC (st.set k v) := by
  intro j o hj
  by_cases hjk : j = k
  · subst hjk; rw [Store.get_set_self] at hj; cases hj; exact hv
  · rw [Store.get_set_ne st k j v hjk] at hj; exact hs j o hj

theorem IdsLt_set {st : Store} {n k : Nat} {v : Order}
    (hs : IdsLt n st) (hk : k < n) : IdsLt n (st.set k v) := by
  intro j hj
  by_cases hjk : j = k
  · subst hjk; exact hk
  · rw [Store.get_set_ne st k j v hjk] at hj; exact hs j hj

theorem Frozen_refl (st : Store) : Frozen st st := fun _ _ h _ => h

theorem Frozen_trans {s1 s2 s3 : Store} (h12 : Frozen s1 s2) (h23 : Frozen s2 s3) :
    Frozen s1 s3 := fun k o h hc => h23 k o (h12 k o h hc) hc

theorem NoNewCancel_refl (st : Store) : NoNewCancel st st := fun _ _ h _ => h

theorem NoNewCancel_trans {s1 s2 s3 : Store}
    (h12 : NoNewCancel s1 s2) (h23 : NoNewCancel s2 s3) : NoNewCancel s1 s3 :=
  fun k o h hc => h12 k o (h23 k o h hc) hc

/-- Writing a value that cannot be a fresh cancelled entry keeps both
cancellation-tracking relations. -/
theorem Frozen_set {st : Store} {k : Nat} {v : Order}
    (h : ∀ o, st.get k = some o → o.status = .cancelled → v = o) :
    Frozen st (st.set k v) := by
  intro j o hj hc
  by_cases hjk : j = k
  · subst hjk; rw [Store.get_set_self, h o hj hc]
  · rw [Store.get_set_ne st k j v hjk]; exact hj

theorem NoNewCancel_set {st : Store} {k : Nat} {v : Order}
    (h : v.status = .cancelled → st.get k = some v) :
    NoNewCancel st (st.set k v) := by
  intro j o hj hc
  by_cases hjk : j = k
  · subst hjk; rw [Store.get_set_self] at hj; cases hj; exact h hc
  · rw [Store.get_set_ne st k j v hjk] at hj; exact hj

theorem NoCancelOm_mono {st st' : Store} {om om' : List Nat}
    (h : NoCancelOm st om) (hn : NoNewCancel st st')
    (hsub : ∀ k, k ∈ om' → k ∈ om) : NoCancelOm st' om' := by
  intro k o hk hc hmem
  exact h k o (hn k o hk hc) hc (hsub k hmem)

/-! ### Order.fill and Order.cancel lemmas -/

theorem fill_id (o : Order) (q : ℚ) (now : Nat) : ((o.fill q now).1).id = o.id := by
  unfold Order.fill; split_ifs <;> rfl

theorem fill_quantity (o : Order) (q : ℚ) (now : Nat) :
    ((o.fill q now).1).quantity = o.quantity := by
  unfold Order.fill; split_ifs <;> rfl

theorem fill_side (o : Order) (q : ℚ) (now : Nat) :
    ((o.fill q now).1).side = o.side := by
  unfold Order.fill; split_ifs <;> rfl

theorem fill_price (o : Order) (q : ℚ) (now : Nat) :
    ((o.fill q now).1).price = o.price := by
  unfold Order.fill; split_ifs <;> rfl

theorem fill_cancelled {o : Order} (h : o.status = .cancelled) (q : ℚ) (now : Nat) :
    (o.fill q now).1 = o := by
  unfold Order.fill
  split_ifs <;> rfl

theorem fill_noerr {o : Order} {q : ℚ} (now : Nat)
    (h0 : 0 < q) (h1 : q ≤ o.remaining) (h2 : o.status ≠ .cancelled) :
    (o.fill q now).2 = none := by
  unfold Order.fill
  rw [if_neg (by exact absurd · (not_le.mpr h0)), if_neg h2,
    if_neg (by rw [Order.remaining] at h1; push_neg; linarith)]
  split_ifs <;> rfl

theorem fill_status_ne_cancelled {o : Order} (h : o.status ≠ .cancelled)
    (q : ℚ) (now : Nat) : ((o.fill q now).1).status ≠ .cancelled := by
  unfold Order.fill
  split_ifs <;> simp_all

theorem fill_cancel_back {o : Order} {q : ℚ} {now : Nat}
    (h : ((o.fill q now).1).status = .cancelled) :
    o.status = .cancelled ∧ (o.fill q now).1 = o := by
  by_cases hc : o.status = .cancelled
  · exact ⟨hc, fill_cancelled hc q now⟩
  · exact absurd h (fill_status_ne_cancelled hc q now)

theorem fill_inv {o : Order} {q : ℚ} (now : Nat)
    (hi : OrderInv o) (h1 : q ≤ o.remaining) : OrderInv ((o.fill q now).1) := by
  obtain ⟨i0, i1, i2, i3⟩ := hi
  rw [Order.remaining] at h1
  unfold Order.fill OrderInv
  split_ifs with c1 c2 c3 c4
  · exact ⟨i0, i1, i2, i3⟩
  · exact ⟨i0, i1, i2, i3⟩
  · exact absurd c3 (by push_neg; linarith)
  · push_neg at c1
    dsimp only
    exact ⟨by linarith, le_of_eq c4, i2, by simp [c4]⟩
  · push_neg at c1 c3
    dsimp only
    exact ⟨by linarith, c3, i2, by simp [c4]⟩

theorem cancel_fst_of_ne_filled {o : Order} (h : o.status ≠ .filled) (now : Nat) :
    o.cancel now = ({ o with status := .cancelled, updatedAt := now }, true) := by
  unfold Order.cancel; rw [if_neg h]

/-- A failed fill on a cancelled order never mutates it (used by C7). -/
theorem fill_frozen {o : Order} (h : o.status = .cancelled) (q : ℚ) (now : Nat) :
    (o.fill q now).1 = o := fill_cancelled h q now

theorem OrderInv_getO {st : Store} (hs : StoreInv st) (k : Nat) :
    OrderInv (st.getO k) := by
  unfold Store.getO
  cases hg : st.get k with
  | none => simp only [Option.getD]; exact ⟨le_refl 0, by norm_num, by norm_num, by simp⟩
  | some o => simpa using hs k o hg

theorem getO_id {st : Store} (hs : IdC st) (k : Nat) : (st.getO k).id = k := by
  unfold Store.getO
  cases hg : st.get k with
  | none => rfl
  | some o => simpa using hs k o hg

/-! ### Level-list and id-list lemmas -/

theorem InLvls_cons {l : Level} {ls : List Level} {k : Nat} :
    InLvls (l :: ls) k ↔ k ∈ l.orders ∨ InLvls ls k := by
  unfold InLvls
  constructor
  · rintro ⟨l1, hl1, hk⟩
    rcases List.mem_cons.mp hl1 with h | h
    · exact Or.inl (h ▸ hk)
    · exact Or.inr ⟨l1, h, hk⟩
  · rintro (hk | ⟨l1, hl1, hk⟩)
    · exact ⟨l, List.mem_cons_self l ls, hk⟩
    · exact ⟨l1, List.mem_cons_of_mem l hl1, hk⟩

theorem InLvls_nil {k : Nat} : ¬ InLvls [] k := by
  rintro ⟨l, hl, _⟩; simp at hl

theorem walkBuy_ids {p : ℚ} {oid k : Nat} :
    ∀ (rest : List Level) (cur : Level), InLvls (walkBuy p oid cur rest) k →
      InLvls (cur :: rest) k ∨ k = oid := by
  intro rest
  induction rest with
  | nil =>
    intro cur h
    rw [walkBuy] at h
    split_ifs at h
    · rcases InLvls_cons.mp h with hk | hk
      · rcases List.mem_append.mp hk with h1 | h1
        · exact Or.inl (InLvls_cons.mpr (Or.inl h1))
        · exact Or.inr (by simpa using h1)
      · exact absurd hk InLvls_nil
    · rcases InLvls_cons.mp h with hk | hk
      · exact Or.inl (InLvls_cons.mpr (Or.inl hk))
      · rcases InLvls_cons.mp hk with hk | hk
        · exact Or.inr (by simpa using hk)
        · exact absurd hk InLvls_nil
  | cons nxt rest ih =>
    intro cur h
    rw [walkBuy] at h
    split_ifs at h
    · rcases InLvls_cons.mp h with hk | hk
      · exact Or.inl (InLvls_cons.mpr (Or.inl hk))
      · rcases ih nxt hk with h1 | h1
        · exact Or.inl (InLvls_cons.mpr (Or.inr h1))
        · exact Or.inr h1
    · rcases InLvls_cons.mp h with hk | hk
      · rcases List.mem_append.mp hk with h1 | h1
        · exact Or.inl (InLvls_cons.mpr (Or.inl h1))
        · exact Or.inr (by simpa using h1)
      · exact Or.inl (InLvls_cons.mpr (Or.inr hk))
    · rcases InLvls_cons.mp h with hk | hk
      · exact Or.inl (InLvls_cons.mpr (Or.inl hk))
      · rcases InLvls_cons.mp hk with hk | hk
        · exact Or.inr (by simpa using hk)
        · exact Or.inl (InLvls_cons.mpr (Or.inr hk))

theorem addLevelBuy_ids {ls : List Level} {p : ℚ} {oid k : Nat}
    (h : InLvls (addLevelBuy ls p oid) k) : InLvls ls k ∨ k = oid := by
  unfold addLevelBuy at h
  cases ls with
  | nil =>
    rcases InLvls_cons.mp h with hk | hk
    · exact Or.inr (by simpa using hk)
    · exact absurd hk InLvls_nil
  | cons l rest =>
    dsimp only at h
    split_ifs at h
    · rcases InLvls_cons.mp h with hk | hk
      · exact Or.inr (by simpa using hk)
      · exact Or.inl hk
    · exact walkBuy_ids rest l h

theorem walkSell_ids {p : ℚ} {oid k : Nat} :
    ∀ (rest : List Level) (cur : Level), InLvls (walkSell p oid cur rest) k →
      InLvls (cur :: rest) k ∨ k = oid := by
  intro rest
  induction rest with
  | nil =>
    intro cur h
    rw [walkSell] at h
    split_ifs at h
    · rcases InLvls_cons.mp h with hk | hk
      · rcases List.mem_append.mp hk with h1 | h1
        · exact Or.inl (InLvls_cons.mpr (Or.inl h1))
        · exact Or.inr (by simpa using h1)
      · exact absurd hk InLvls_nil
    · rcases InLvls_cons.mp h with hk | hk
      · exact Or.inl (InLvls_cons.mpr (Or.inl hk))
      · rcases InLvls_cons.mp hk with hk | hk
        · exact Or.inr (by simpa using hk)
        · exact absurd hk InLvls_nil
  | cons nxt rest ih =>
    intro cur h
    rw [walkSell] at h
    split_ifs at h
    · rcases InLvls_cons.mp h with hk | hk
      · exact Or.inl (InLvls_cons.mpr (Or.inl hk))
      · rcases ih nxt hk with h1 | h1
        · exact Or.inl (InLvls_cons.mpr (Or.inr h1))
        · exact Or.inr h1
    · rcases InLvls_cons.mp h with hk | hk
      · rcases List.mem_append.mp hk with h1 | h1
        · exact Or.inl (InLvls_cons.mpr (Or.inl h1))
        · exact Or.inr (by simpa using h1)
      · exact Or.inl (InLvls_cons.mpr (Or.inr hk))
    · rcases InLvls_cons.mp h with hk | hk
      · exact Or.inl (InLvls_cons.mpr (Or.inl hk))
      · rcases InLvls_cons.mp hk with hk | hk
        · exact Or.inr (by simpa using hk)
        · exact Or.inl (InLvls_cons.mpr (Or.inr hk))

theorem addLevelSell_ids {ls : List Level} {p : ℚ} {oid k : Nat}
    (h : InLvls (addLevelSell ls p oid) k) : InLvls ls k ∨ k = oid := by
  unfold addLevelSell at h
  cases ls with
  | nil =>
    rcases InLvls_cons.mp h with hk | hk
    · exact Or.inr (by simpa using hk)
    · exact absurd hk InLvls_nil
  | cons l rest =>
    dsimp only at h
    split_ifs at h
    · rcases InLvls_cons.mp h with hk | hk
      · exact Or.inr (by simpa using hk)
      · exact Or.inl hk
    · exact walkSell_ids rest l h

theorem cleanup_ids {ls : List Level} {k : Nat}
    (h : InLvls (cleanup ls) k) : InLvls ls k := by
  induction ls with
  | nil => exact absurd h InLvls_nil
  | cons l rest ih =>
    rw [cleanup] at h
    split_ifs at h
    · exact InLvls_cons.mpr (Or.inr (ih h))
    · exact h

theorem mem_insertId {om : List Nat} {j k : Nat} :
    k ∈ insertId om j ↔ k ∈ om ∨ k = j := by
  unfold insertId
  split_ifs with h
  · constructor
    · exact Or.inl
    · rintro (hk | rfl); exacts [hk, h]
  · simp [List.mem_append]

theorem mem_eraseId {om : List Nat} {j k : Nat} :
    k ∈ eraseId om j ↔ k ∈ om ∧ k ≠ j := by
  simp [eraseId, List.mem_filter]

theorem eraseId_sub {om : List Nat} {j k : Nat} (h : k ∈ eraseId om j) : k ∈ om :=
  (mem_eraseId.mp h).1

theorem not_mem_eraseId {om : List Nat} {j : Nat} : j ∉ eraseId om j := by
  intro h; exact (mem_eraseId.mp h).2 rfl

/-! ### tryMatch specification -/

/-- Everything preserved by one pass of the `tryMatch` loops, relative to the
state `s` it started from. -/
structure TMGood (n : Nat) (s t : TMState) : Prop where
  err : t.err = false
  onc : t.o.status ≠ .cancelled
  oid : t.o.id = s.o.id
  oside : t.o.side = s.o.side
  oinv : OrderInv t.o
  sinv : StoreInv t.st
  idc : IdC t.st
  lt : IdsLt n t.st
  fr : Frozen s.st t.st
  nnc : NoNewCancel s.st t.st
  omsub : ∀ k, k ∈ t.om → k ∈ s.om

theorem TMGood.comp {n : Nat} {s t u : TMState}
    (h1 : TMGood n s t) (h2 : TMGood n t u) : TMGood n s u :=
  ⟨h2.err, h2.onc, h2.oid.trans h1.oid, h2.oside.trans h1.oside,
    h2.oinv, h2.sinv, h2.idc, h2.lt,
    Frozen_trans h1.fr h2.fr, NoNewCancel_trans h1.nnc h2.nnc,
    fun k hk => h1.omsub k (h2.omsub k hk)⟩

theorem TMGood.refl {n : Nat} {s : TMState}
    (he : s.err = false) (hc : s.o.status ≠ .cancelled) (hoi : OrderInv s.o)
    (hsi : StoreInv s.st) (hic : IdC s.st) (hlt : IdsLt n s.st) : TMGood n s s :=
  ⟨he, hc, rfl, rfl, hoi, hsi, hic, hlt, Frozen_refl _, NoNewCancel_refl _, fun _ h => h⟩

theorem tryInner_spec (now n : Nat) (ids : List Nat) (s : TMState)
    (hids : ∀ k ∈ ids, k < n)
    (he : s.err = false) (hc : s.o.status ≠ .cancelled) (hoi : OrderInv s.o)
    (hsi : StoreInv s.st) (hic : IdC s.st) (hlt : IdsLt n s.st) :
    TMGood n s (tryInner now s ids) := by
  induction ids generalizing s with
  | nil =>
    rw [tryInner]
    exact TMGood.refl he hc hoi hsi hic hlt
  | cons rid rest ih =>
    have hridn : rid < n := hids rid (List.mem_cons_self _ _)
    have hrestn : ∀ k ∈ rest, k < n := fun k hk => hids k (List.mem_cons_of_mem _ hk)
    rw [tryInner]
    cases hg : s.st.get rid with
    | none => exact ih s hrestn he hc hoi hsi hic hlt
    | some r =>
      dsimp only
      split_ifs with hrc hmq
      · exact ih s hrestn he hc hoi hsi hic hlt
      · exact ih s hrestn he hc hoi hsi hic hlt
      · push_neg at hmq
        have hqo : min s.o.remaining r.remaining ≤ s.o.remaining := min_le_left _ _
        have hqr : min s.o.remaining r.remaining ≤ r.remaining := min_le_right _ _
        have hfo := fill_noerr (o := s.o) now hmq hqo hc
        have hfr := fill_noerr (o := r) now hmq hqr hrc
        rcases hfe : s.o.fill (min s.o.remaining r.remaining) now with ⟨o1, eo⟩
        rw [hfe] at hfo
        cases eo with
        | some e => exact absurd hfo (by simp)
        | none =>
          rcases hre : r.fill (min s.o.remaining r.remaining) now with ⟨r1, er⟩
          rw [hre] at hfr
          cases er with
          | some e => exact absurd hfr (by simp)
          | none =>
            dsimp only
            have ho1c : o1.status ≠ .cancelled := by
              have := fill_status_ne_cancelled hc (min s.o.remaining r.remaining) now
              rwa [hfe] at this
            have ho1id : o1.id = s.o.id := by
              have := fill_id s.o (min s.o.remaining r.remaining) now
              rwa [hfe] at this
            have ho1side : o1.side = s.o.side := by
              have := fill_side s.o (min s.o.remaining r.remaining) now
              rwa [hfe] at this
            have ho1inv : OrderInv o1 := by
              have := fill_inv now hoi hqo
              rwa [hfe] at this
            have hr1inv : OrderInv r1 := by
              have := fill_inv now (hsi rid r hg) hqr
              rwa [hre] at this
            have hr1c : r1.status ≠ .cancelled := by
              have := fill_status_ne_cancelled hrc (min s.o.remaining r.remaining) now
              rwa [hre] at this
            have hr1id : r1.id = rid := by
              have := fill_id r (min s.o.remaining r.remaining) now
              rw [hre] at this
              exact this.trans (hic rid r hg)
            have hstep : TMGood n s
                ⟨o1, s.st.set rid r1,
                  if r1.status = .filled then eraseId s.om rid else s.om, false⟩ := by
              refine ⟨rfl, ho1c, ho1id, ho1side, ho1inv, StoreInv_set hsi hr1inv,
                IdC_set hic hr1id, IdsLt_set hlt hridn, ?_, ?_, ?_⟩
              · exact Frozen_set (fun o ho hoc => by
                  rw [hg] at ho; cases ho; exact absurd hoc hrc)
              · exact NoNewCancel_set (fun hcc => absurd hcc hr1c)
              · intro k hk
                dsimp only at hk
                split_ifs at hk
                · exact eraseId_sub hk
                · exact hk
            by_cases hof : o1.status = .filled
            · rw [if_pos hof]
              exact hstep
            · rw [if_neg hof]
              exact hstep.comp (ih _ hrestn rfl ho1c ho1inv hstep.sinv hstep.idc hstep.lt)

theorem tryLevels_spec (now : Nat) (aggr : Bool) (n : Nat) (ls : List Level) (s : TMState)
    (hls : LvlLt n ls)
    (he : s.err = false) (hc : s.o.status ≠ .cancelled) (hoi : OrderInv s.o)
    (hsi : StoreInv s.st) (hic : IdC s.st) (hlt : IdsLt n s.st) :
    TMGood n s (tryLevels now aggr s ls) := by
  induction ls generalizing s with
  | nil =>
    rw [tryLevels]
    exact TMGood.refl he hc hoi hsi hic hlt
  | cons l rest ih =>
    have hlids : ∀ k ∈ l.orders, k < n := fun k hk => hls k (InLvls_cons.mpr (Or.inl hk))
    have hrest : LvlLt n rest := fun k hk => hls k (InLvls_cons.mpr (Or.inr hk))
    rw [tryLevels]
    split_ifs with h1 h2
    · exact TMGood.refl he hc hoi hsi hic hlt
    · exact TMGood.refl he hc hoi hsi hic hlt
    · have hinner := tryInner_spec now n l.orders s hlids he hc hoi hsi hic hlt
      dsimp only
      rw [if_neg (by rw [hinner.err]; simp)]
      exact hinner.comp
        (ih _ hrest hinner.err hinner.onc hinner.oinv hinner.sinv hinner.idc hinner.lt)

/-! ### processLevelMatch and match specifications -/

theorem getO_set_ne (st : Store) (k j : Nat) (v : Order) (h : j ≠ k) :
    (st.set k v).getO j = st.getO j := by
  unfold Store.getO
  rw [Store.get_set_ne st k j v h]

theorem getO_not_cancelled_of_none {st : Store} {k : Nat} (h : st.get k = none) :
    (st.getO k).status ≠ .cancelled := by
  unfold Store.getO
  rw [h]
  simp only [Option.getD]
  intro hc
  cases hc

theorem plmLoop_spec (now n : Nat) (fuel : Nat) :
    ∀ (bq sq : List Nat) (st : Store) (out : List Nat × List Nat × Store),
      plmLoop now fuel bq sq st = some out →
      (∀ k ∈ bq, k < n) → (∀ k ∈ sq, k < n) →
      (∀ k, k ∈ bq → k ∈ sq → False) →
      StoreInv st → IdC st → IdsLt n st →
      StoreInv out.2.2 ∧ IdC out.2.2 ∧ IdsLt n out.2.2 ∧
        Frozen st out.2.2 ∧ NoNewCancel st out.2.2 ∧
        (∀ k ∈ out.1, k ∈ bq) ∧ (∀ k ∈ out.2.1, k ∈ sq) := by
  induction fuel with
  | zero =>
    intro bq sq st out h
    rw [plmLoop] at h
    cases h
  | succ fuel ih =>
    intro bq sq st out h hbq hsq hdisj hsi hic hlt
    cases bq with
    | nil =>
      rw [plmLoop] at h
      cases h
      exact ⟨hsi, hic, hlt, Frozen_refl _, NoNewCancel_refl _, fun _ h => h, fun _ h => h⟩
    | cons b0 btl =>
      cases sq with
      | nil =>
        rw [plmLoop] at h
        cases h
        exact ⟨hsi, hic, hlt, Frozen_refl _, NoNewCancel_refl _, fun _ h => h, fun _ h => h⟩
      | cons s0 stl =>
        rw [plmLoop] at h
        have hb0 : b0 ∈ b0 :: btl := List.mem_cons_self _ _
        have hs0 : s0 ∈ s0 :: stl := List.mem_cons_self _ _
        have hne : s0 ≠ b0 := fun he => hdisj s0 (he ▸ hb0) hs0
        have hb0n : b0 < n := hbq b0 hb0
        have hs0n : s0 < n := hsq s0 hs0
        set buy := st.getO b0 with hbuy
        set mq := min buy.remaining (st.getO s0).remaining with hmq
        set buy1 := (buy.fill mq now).1 with hbuy1
        set st1 := st.set b0 buy1 with hst1
        have hsells : st1.getO s0 = st.getO s0 := by
          rw [hst1, getO_set_ne st b0 s0 buy1 hne]
        set sell1 := ((st1.getO s0).fill mq now).1 with hsell1
        set st2 := st1.set s0 sell1 with hst2
        have hbuy1inv : OrderInv buy1 := fill_inv now (OrderInv_getO hsi b0) (min_le_left _ _)
        have hbuy1id : buy1.id = b0 := by rw [hbuy1, fill_id, hbuy, getO_id hic]
        have hsi1 : StoreInv st1 := StoreInv_set hsi hbuy1inv
        have hic1 : IdC st1 := IdC_set hic hbuy1id
        have hlt1 : IdsLt n st1 := IdsLt_set hlt hb0n
        have hsell1inv : OrderInv sell1 := by
          rw [hsell1, hsells]
          exact fill_inv now (OrderInv_getO hsi s0) (min_le_right _ _)
        have hsell1id : sell1.id = s0 := by
          rw [hsell1, fill_id, hsells, getO_id hic]
        have hsi2 : StoreInv st2 := StoreInv_set hsi1 hsell1inv
        have hic2 : IdC st2 := IdC_set hic1 hsell1id
        have hlt2 : IdsLt n st2 := IdsLt_set hlt1 hs0n
        have hfr1 : Frozen st st1 := by
          refine Frozen_set (fun o ho hoc => ?_)
          rw [hbuy1, hbuy]
          unfold Store.getO
          rw [ho]
          exact fill_cancelled hoc mq now
        have hfr2 : Frozen st1 st2 := by
          refine Frozen_set (fun o ho hoc => ?_)
          rw [hsell1]
          unfold Store.getO
          rw [ho]
          exact fill_cancelled hoc mq now
        have hnn1 : NoNewCancel st st1 := by
          refine NoNewCancel_set (fun hcc => ?_)
          rw [hbuy1] at hcc
          obtain ⟨hbc, hbeq⟩ := fill_cancel_back hcc
          cases hg : st.get b0 with
          | none =>
            rw [hbuy] at hbc
            exact absurd hbc (getO_not_cancelled_of_none hg)
          | some o =>
            have hbo : buy = o := by
              rw [hbuy]; unfold Store.getO; rw [hg]; rfl
            have hbeq1 : (o.fill mq now).1 = o := hbo ▸ hbeq
            simp only [hbuy1, hbo, hbeq1, hg]
        have hnn2 : NoNewCancel st1 st2 := by
          refine NoNewCancel_set (fun hcc => ?_)
          rw [hsell1] at hcc
          obtain ⟨hbc, hbeq⟩ := fill_cancel_back hcc
          cases hg : st1.get s0 with
          | none =>
            exact absurd hbc (getO_not_cancelled_of_none hg)
          | some o =>
            have hbo : st1.getO s0 = o := by
              unfold Store.getO; rw [hg]; rfl
            have hbeq1 : (o.fill mq now).1 = o := hbo ▸ hbeq
            simp only [hsell1, hbo, hbeq1, hg]
        have hrec := ih (if buy1.status = .filled then btl else b0 :: btl)
          (if sell1.status = .filled then stl else s0 :: stl) st2 out h
          (by split_ifs <;> intro k hk <;>
            exact hbq k (by first | exact List.mem_cons_of_mem _ hk | exact hk))
          (by split_ifs <;> intro k hk <;>
            exact hsq k (by first | exact List.mem_cons_of_mem _ hk | exact hk))
          (by
            intro k hk1 hk2
            refine hdisj k ?_ ?_
            · revert hk1; split_ifs <;> intro hk1 <;>
                first | exact List.mem_cons_of_mem _ hk1 | exact hk1
            · revert hk2; split_ifs <;> intro hk2 <;>
                first | exact List.mem_cons_of_mem _ hk2 | exact hk2)
          hsi2 hic2 hlt2
        obtain ⟨r1, r2, r3, r4, r5, r6, r7⟩ := hrec
        refine ⟨r1, r2, r3, Frozen_trans (Frozen_trans hfr1 hfr2) r4,
          NoNewCancel_trans (NoNewCancel_trans hnn1 hnn2) r5, ?_, ?_⟩
        · intro k hk
          have hx := r6 k hk
          revert hx; split_ifs <;> intro hx <;>
            first | exact List.mem_cons_of_mem _ hx | exact hx
        · intro k hk
          have hx := r7 k hk
          revert hx; split_ifs <;> intro hx <;>
            first | exact List.mem_cons_of_mem _ hx | exact hx

theorem matchLoop_spec (now pf n : Nat) (fuel : Nat) :
    ∀ (bls sls : List Level) (st : Store) (out : Core),
      matchLoop now pf fuel bls sls st = some out →
      LvlLt n bls → LvlLt n sls →
      (∀ k, InLvls bls k → InLvls sls k → False) →
      StoreInv st → IdC st → IdsLt n st →
      StoreInv out.store ∧ IdC out.store ∧ IdsLt n out.store ∧
        Frozen st out.store ∧ NoNewCancel st out.store ∧
        (∀ k, InLvls out.buyLevels k → InLvls bls k) ∧
        (∀ k, InLvls out.sellLevels k → InLvls sls k) ∧
        NoCrossL out.buyLevels out.sellLevels := by
  induction fuel with
  | zero =>
    intro bls sls st out h
    rw [matchLoop] at h
    cases h
  | succ fuel ih =>
    intro bls sls st out h hbl hsl hdisj hsi hic hlt
    cases bls with
    | nil =>
      rw [matchLoop] at h
      cases h
      exact ⟨hsi, hic, hlt, Frozen_refl _, NoNewCancel_refl _,
        fun _ h => h, fun _ h => h, True.intro⟩
    | cons bl btl =>
      cases sls with
      | nil =>
        rw [matchLoop] at h
        cases h
        exact ⟨hsi, hic, hlt, Frozen_refl _, NoNewCancel_refl _,
          fun _ h => h, fun _ h => h, True.intro⟩
      | cons sl stl =>
        rw [matchLoop] at h
        split_ifs at h with hpr
        · cases h
          exact ⟨hsi, hic, hlt, Frozen_refl _, NoNewCancel_refl _,
            fun _ h => h, fun _ h => h, hpr⟩
        · cases hp : plmLoop now pf bl.orders sl.orders st with
          | none => rw [hp] at h; cases h
          | some r =>
            obtain ⟨bq, sq, st1⟩ := r
            rw [hp] at h
            dsimp only at h
            have hplm := plmLoop_spec now n pf bl.orders sl.orders st (bq, sq, st1) hp
              (fun k hk => hbl k (InLvls_cons.mpr (Or.inl hk)))
              (fun k hk => hsl k (InLvls_cons.mpr (Or.inl hk)))
              (fun k hk1 hk2 =>
                hdisj k (InLvls_cons.mpr (Or.inl hk1)) (InLvls_cons.mpr (Or.inl hk2)))
              hsi hic hlt
            obtain ⟨p1, p2, p3, p4, p5, p6, p7⟩ := hplm
            have hbsub : ∀ k, InLvls (cleanup (⟨bl.price, bq⟩ :: btl)) k →
                InLvls (bl :: btl) k := by
              intro k hk
              rcases InLvls_cons.mp (cleanup_ids hk) with hk1 | hk1
              · exact InLvls_cons.mpr (Or.inl (p6 k hk1))
              · exact InLvls_cons.mpr (Or.inr hk1)
            have hssub : ∀ k, InLvls (cleanup (⟨sl.price, sq⟩ :: stl)) k →
                InLvls (sl :: stl) k := by
              intro k hk
              rcases InLvls_cons.mp (cleanup_ids hk) with hk1 | hk1
              · exact InLvls_cons.mpr (Or.inl (p7 k hk1))
              · exact InLvls_cons.mpr (Or.inr hk1)
            have hrec := ih _ _ _ _ h
              (fun k hk => hbl k (hbsub k hk)) (fun k hk => hsl k (hssub k hk))
              (fun k hk1 hk2 => hdisj k (hbsub k hk1) (hssub k hk2))
              p1 p2 p3
            obtain ⟨r1, r2, r3, r4, r5, r6, r7, r8⟩ := hrec
            exact ⟨r1, r2, r3, Frozen_trans p4 r4, NoNewCancel_trans p5 r5,
              fun k hk => hbsub k (r6 k hk), fun k hk => hssub k (r7 k hk), r8⟩

/-! ### Book invariant and operation specifications -/

/-- The reachable-state invariant of a book. -/
structure Inv (b : Book) : Prop where
  sinv : StoreInv b.store
  idc : IdC b.store
  slt : IdsLt b.nextId b.store
  blt : LvlLt b.nextId b.buyLevels
  sllt : LvlLt b.nextId b.sellLevels
  omlt : ∀ k ∈ b.om, k < b.nextId
  nco : NoCancelOm b.store b.om
  disj : ∀ k, InLvls b.buyLevels k → InLvls b.sellLevels k → False
  nc : NoCross b

theorem cancel_inv {o : Order} (hi : OrderInv o) (h : o.status ≠ .filled) (now : Nat) :
    OrderInv { o with status := .cancelled, updatedAt := now } := by
  obtain ⟨i0, i1, i2, i3⟩ := hi
  refine ⟨i0, i1, i2, ?_⟩
  dsimp only
  constructor
  · intro hc; cases hc
  · intro hf; exact absurd (i3.mpr hf) h

theorem CancelOrder_spec (now : Nat) (b : Book) (oid : Nat) (hi : Inv b) :
    Inv (CancelOrder now b oid).1 ∧ Frozen b.store (CancelOrder now b oid).1.store ∧
      (CancelOrder now b oid).1.buyLevels = b.buyLevels ∧
      (CancelOrder now b oid).1.sellLevels = b.sellLevels ∧
      (CancelOrder now b oid).1.nextId = b.nextId ∧
      (CancelOrder now b oid).1.clock = b.clock ∧
      (CancelOrder now b oid).1.symbol = b.symbol := by
  unfold CancelOrder
  split_ifs with hmem
  · cases hg : b.store.get oid with
    | none => exact ⟨hi, Frozen_refl _, rfl, rfl, rfl, rfl, rfl⟩
    | some o =>
      dsimp only
      by_cases hf : o.status = .filled
      · have : o.cancel now = (o, false) := by unfold Order.cancel; rw [if_pos hf]
        rw [this]
        exact ⟨hi, Frozen_refl _, rfl, rfl, rfl, rfl, rfl⟩
      · rw [cancel_fst_of_ne_filled hf]
        have honc : o.status ≠ .cancelled := by
          intro hc
          exact hi.nco oid o hg hc hmem
        have hinv1 : OrderInv { o with status := .cancelled, updatedAt := now } :=
          cancel_inv (hi.sinv oid o hg) hf now
        refine ⟨⟨StoreInv_set hi.sinv hinv1,
          IdC_set hi.idc (by dsimp only; exact hi.idc oid o hg),
          IdsLt_set hi.slt (hi.omlt oid hmem),
          hi.blt, hi.sllt,
          fun k hk => hi.omlt k (eraseId_sub hk),
          ?_, hi.disj, hi.nc⟩, ?_, rfl, rfl, rfl, rfl, rfl⟩
        · intro k o1 hk hc hkm
          by_cases hko : k = oid
          · subst hko
            exact not_mem_eraseId hkm
          · rw [Store.get_set_ne _ _ _ _ hko] at hk
            exact hi.nco k o1 hk hc (eraseId_sub hkm)
        · refine Frozen_set (fun o2 ho2 hc2 => ?_)
          rw [hg] at ho2
          cases ho2
          exact absurd hc2 honc
  · exact ⟨hi, Frozen_refl _, rfl, rfl, rfl, rfl, rfl⟩

/-- Assembly of the invariant after the trailing `match` call of `AddOrder`. -/
theorem assemble_inv (now pf fuel n : Nat) (bl sl : List Level) (st1 : Store)
    (om1 : List Nat) (c : Core) (h : matchLoop now pf fuel bl sl st1 = some c)
    (hbl : LvlLt n bl) (hsl : LvlLt n sl)
    (hdisj : ∀ k, InLvls bl k → InLvls sl k → False)
    (hsi : StoreInv st1) (hic : IdC st1) (hlt : IdsLt n st1)
    (hnco : NoCancelOm st1 om1) :
    StoreInv c.store ∧ IdC c.store ∧ IdsLt n c.store ∧
      LvlLt n c.buyLevels ∧ LvlLt n c.sellLevels ∧
      (∀ k, InLvls c.buyLevels k → InLvls c.sellLevels k → False) ∧
      NoCancelOm c.store om1 ∧ NoCrossL c.buyLevels c.sellLevels ∧
      Frozen st1 c.store ∧
      (∀ k, InLvls c.buyLevels k → InLvls bl k) ∧
      (∀ k, InLvls c.sellLevels k → InLvls sl k) := by
  obtain ⟨m1, m2, m3, m4, m5, m6, m7, m8⟩ :=
    matchLoop_spec now pf n fuel bl sl st1 c h hbl hsl hdisj hsi hic hlt
  exact ⟨m1, m2, m3,
    fun k hk => hbl k (m6 k hk), fun k hk => hsl k (m7 k hk),
    fun k hk1 hk2 => hdisj k (m6 k hk1) (m7 k hk2),
    NoCancelOm_mono hnco m5 (fun _ h => h), m8, m4, m6, m7⟩

theorem findInQueue_none {st : Store} {j : Nat} :
    ∀ (ids : List Nat), (∀ k ∈ ids, (st.getO k).id ≠ j) → findInQueue st j ids = none := by
  intro ids hq
  induction ids with
  | nil => rfl
  | cons k rest ih =>
    rw [findInQueue]
    rw [if_neg (hq k (List.mem_cons_self _ _))]
    exact ih (fun k1 hk1 => hq k1 (List.mem_cons_of_mem _ hk1))

theorem findOrderLvls_none {st : Store} {j : Nat} (hic : IdC st) :
    ∀ (ls : List Level), (∀ k, InLvls ls k → k ≠ j) → findOrderLvls st j ls = none := by
  intro ls hls
  induction ls with
  | nil => rfl
  | cons l rest ih =>
    rw [findOrderLvls]
    rw [findInQueue_none l.orders (fun k hk => by
      rw [getO_id hic k]
      exact hls k (InLvls_cons.mpr (Or.inl hk)))]
    exact ih (fun k hk => hls k (InLvls_cons.mpr (Or.inr hk)))

theorem GetOrder_none {b : Book} {j : Nat} (hic : IdC b.store)
    (hb : ∀ k, InLvls b.buyLevels k → k ≠ j) (hs : ∀ k, InLvls b.sellLevels k → k ≠ j) :
    GetOrder b j = none := by
  unfold GetOrder
  rw [findOrderLvls_none hic b.buyLevels hb, findOrderLvls_none hic b.sellLevels hs]

theorem AddOrder_spec (fuel now : Nat) (b : Book) (o : Order) (b1 : Book) (e : Option AddErr)
    (h : AddOrder fuel now b o = some (b1, e))
    (hi : Inv b) (hoid : o.id = b.nextId) (host : o.status = .new) (hoi : OrderInv o) :
    Inv { b1 with nextId := b.nextId + 1, clock := b.clock + 1 } ∧
      Frozen b.store b1.store ∧
      ((tryLevels now (decide (o.side = Side.buy)) ⟨o, b.store, b.om, false⟩
          (oppLevels b o.side)).o.status = .filled →
        (∀ k, k ∈ b1.om → k ∈ b.om) ∧
        (∀ k, InLvls b1.buyLevels k → InLvls b.buyLevels k) ∧
        (∀ k, InLvls b1.sellLevels k → InLvls b.sellLevels k)) := by
  unfold AddOrder at h
  by_cases hsym : o.symbol ≠ b.symbol
  · rw [if_pos hsym] at h
    cases h
    exact ⟨⟨hi.sinv, hi.idc, fun k hk => Nat.lt_succ_of_lt (hi.slt k hk),
      fun k hk => Nat.lt_succ_of_lt (hi.blt k hk),
      fun k hk => Nat.lt_succ_of_lt (hi.sllt k hk),
      fun k hk => Nat.lt_succ_of_lt (hi.omlt k hk),
      hi.nco, hi.disj, hi.nc⟩, Frozen_refl _,
      fun _ => ⟨fun _ hk => hk, fun _ hk => hk, fun _ hk => hk⟩⟩
  · rw [if_neg hsym] at h
    set opp := oppLevels b o.side with hoppdef
    set s := tryLevels now (decide (o.side = Side.buy)) ⟨o, b.store, b.om, false⟩ opp with hsdef
    have hopplt : LvlLt b.nextId opp := by
      rw [hoppdef]
      cases o.side
      · exact hi.sllt
      · exact hi.blt
    have htm : TMGood b.nextId ⟨o, b.store, b.om, false⟩ s := by
      rw [hsdef]
      exact tryLevels_spec now _ b.nextId opp ⟨o, b.store, b.om, false⟩ hopplt rfl
        (by dsimp only; rw [host]; intro hx; cases hx) hoi hi.sinv hi.idc hi.slt
    rw [if_neg (show ¬ (s.err = true) by rw [htm.err]; simp)] at h
    try dsimp only at h
    try rw [← hsdef] at h
    have hsoid : s.o.id = b.nextId := htm.oid.trans hoid
    have hfr0 : Frozen b.store (s.st.set s.o.id s.o) := by
      refine Frozen_trans htm.fr (Frozen_set (fun o2 ho2 hc2 => ?_))
      have hlt2 := htm.lt s.o.id (by rw [ho2]; rfl)
      rw [hsoid] at hlt2
      exact absurd hlt2 (lt_irrefl _)
    have hsi1 : StoreInv (s.st.set s.o.id s.o) := StoreInv_set htm.sinv htm.oinv
    have hic1 : IdC (s.st.set s.o.id s.o) := IdC_set htm.idc rfl
    have hlt1 : IdsLt (b.nextId + 1) (s.st.set s.o.id s.o) :=
      IdsLt_set (fun k hk => Nat.lt_succ_of_lt (htm.lt k hk)) (by rw [hsoid]; exact Nat.lt_succ_self _)
    have hnco1 : ∀ om1, (∀ k, k ∈ om1 → k ∈ s.om ∨ k = s.o.id) →
        NoCancelOm (s.st.set s.o.id s.o) om1 := by
      intro om1 hsub k o2 hk hc hkm
      by_cases hko : k = s.o.id
      · subst hko
        rw [Store.get_set_self] at hk
        cases hk
        exact htm.onc hc
      · rw [Store.get_set_ne _ _ _ _ hko] at hk
        rcases hsub k hkm with hk1 | hk1
        · exact hi.nco k o2 (htm.nnc k o2 hk hc) hc (htm.omsub k hk1)
        · exact hko hk1
    by_cases hfill : s.o.status = .filled
    · rw [if_neg (fun hh => hh hfill)] at h
      cases hm : matchLoop now fuel fuel b.buyLevels b.sellLevels (s.st.set s.o.id s.o) with
      | none => rw [hm] at h; cases h
      | some c =>
        rw [hm] at h
        cases h
        obtain ⟨a1, a2, a3, a4, a5, a6, a7, a8, a9, a10, a11⟩ :=
          assemble_inv now fuel fuel (b.nextId + 1) b.buyLevels b.sellLevels
            (s.st.set s.o.id s.o) s.om c hm
            (fun k hk => Nat.lt_succ_of_lt (hi.blt k hk))
            (fun k hk => Nat.lt_succ_of_lt (hi.sllt k hk))
            hi.disj hsi1 hic1 hlt1
            (hnco1 s.om (fun k hk => Or.inl hk))
        exact ⟨⟨a1, a2, a3, a4, a5,
          fun k hk => Nat.lt_succ_of_lt (hi.omlt k (htm.omsub k hk)),
          a7, a6, a8⟩, Frozen_trans hfr0 a9,
          fun _ => ⟨htm.omsub, a10, a11⟩⟩
    · rw [if_pos hfill] at h
      rcases hside : s.o.side with _ | _
      · -- buy side rests
        rw [hside] at h
        dsimp only at h
        cases hm : matchLoop now fuel fuel (addLevelBuy b.buyLevels s.o.price s.o.id)
            b.sellLevels (s.st.set s.o.id s.o) with
        | none => rw [hm] at h; cases h
        | some c =>
          rw [hm] at h
          cases h
          have hbl1 : LvlLt (b.nextId + 1) (addLevelBuy b.buyLevels s.o.price s.o.id) := by
            intro k hk
            rcases addLevelBuy_ids hk with hk1 | hk1
            · exact Nat.lt_succ_of_lt (hi.blt k hk1)
            · rw [hk1, hsoid]; exact Nat.lt_succ_self _
          have hdisj1 : ∀ k, InLvls (addLevelBuy b.buyLevels s.o.price s.o.id) k →
              InLvls b.sellLevels k → False := by
            intro k hk1 hk2
            rcases addLevelBuy_ids hk1 with hk3 | hk3
            · exact hi.disj k hk3 hk2
            · rw [hk3, hsoid] at hk2
              exact absurd (hi.sllt _ hk2) (lt_irrefl _)
          obtain ⟨a1, a2, a3, a4, a5, a6, a7, a8, a9, a10, a11⟩ :=
            assemble_inv now fuel fuel (b.nextId + 1)
              (addLevelBuy b.buyLevels s.o.price s.o.id) b.sellLevels
              (s.st.set s.o.id s.o) (insertId s.om s.o.id) c hm
              hbl1 (fun k hk => Nat.lt_succ_of_lt (hi.sllt k hk)) hdisj1 hsi1 hic1 hlt1
              (hnco1 _ (fun k hk => mem_insertId.mp hk))
          refine ⟨⟨a1, a2, a3, a4, a5, ?_, a7, a6, a8⟩, Frozen_trans hfr0 a9,
            fun hf => absurd hf hfill⟩
          intro k hk
          rcases mem_insertId.mp hk with hk1 | hk1
          · exact Nat.lt_succ_of_lt (hi.omlt k (htm.omsub k hk1))
          · rw [hk1, hsoid]; exact Nat.lt_succ_self _
      · -- sell side rests
        rw [hside] at h
        dsimp only at h
        cases hm : matchLoop now fuel fuel b.buyLevels
            (addLevelSell b.sellLevels s.o.price s.o.id) (s.st.set s.o.id s.o) with
        | none => rw [hm] at h; cases h
        | some c =>
          rw [hm] at h
          cases h
          have hsl1 : LvlLt (b.nextId + 1) (addLevelSell b.sellLevels s.o.price s.o.id) := by
            intro k hk
            rcases addLevelSell_ids hk with hk1 | hk1
            · exact Nat.lt_succ_of_lt (hi.sllt k hk1)
            · rw [hk1, hsoid]; exact Nat.lt_succ_self _
          have hdisj1 : ∀ k, InLvls b.buyLevels k →
              InLvls (addLevelSell b.sellLevels s.o.price s.o.id) k → False := by
            intro k hk1 hk2
            rcases addLevelSell_ids hk2 with hk3 | hk3
            · exact hi.disj k hk1 hk3
            · rw [hk3, hsoid] at hk1
              exact absurd (hi.blt _ hk1) (lt_irrefl _)
          obtain ⟨a1, a2, a3, a4, a5, a6, a7, a8, a9, a10, a11⟩ :=
            assemble_inv now fuel fuel (b.nextId + 1) b.buyLevels
              (addLevelSell b.sellLevels s.o.price s.o.id)
              (s.st.set s.o.id s.o) (insertId s.om s.o.id) c hm
              (fun k hk => Nat.lt_succ_of_lt (hi.blt k hk)) hsl1 hdisj1 hsi1 hic1 hlt1
              (hnco1 _ (fun k hk => mem_insertId.mp hk))
          refine ⟨⟨a1, a2, a3, a4, a5, ?_, a7, a6, a8⟩, Frozen_trans hfr0 a9,
            fun hf => absurd hf hfill⟩
          intro k hk
          rcases mem_insertId.mp hk with hk1 | hk1
          · exact Nat.lt_succ_of_lt (hi.omlt k (htm.omsub k hk1))
          · rw [hk1, hsoid]; exact Nat.lt_succ_self _

theorem step_inv (fuel : Nat) (b : Book) (op : Op) (b1 : Book)
    (h : step fuel b op = some b1) (hi : Inv b) :
    Inv b1 ∧ Frozen b.store b1.store := by
  cases op with
  | add side sym p q =>
    rw [step] at h
    split_ifs at h with hpq
    · cases h
      exact ⟨hi, Frozen_refl _⟩
    · push_neg at hpq
      dsimp only at h
      cases ha : AddOrder fuel b.clock b ⟨b.nextId, side, sym, p, q, 0, .new, b.clock, b.clock⟩ with
      | none => rw [ha] at h; cases h
      | some r =>
        obtain ⟨b2, e⟩ := r
        rw [ha] at h
        dsimp only at h
        cases h
        have hfo : OrderInv ⟨b.nextId, side, sym, p, q, 0, .new, b.clock, b.clock⟩ := by
          refine ⟨le_refl 0, le_of_lt hpq.2, hpq.2, ?_⟩
          constructor
          · intro hx; cases hx
          · intro hx; exact absurd hx (ne_of_lt hpq.2)
        have hADD := AddOrder_spec fuel b.clock b _ b2 e ha hi rfl rfl hfo
        exact ⟨hADD.1, hADD.2.1⟩
  | cancel oid =>
    rw [step] at h
    cases h
    have hc := CancelOrder_spec b.clock b oid hi
    exact ⟨⟨hc.1.sinv, hc.1.idc, hc.1.slt, hc.1.blt, hc.1.sllt, hc.1.omlt,
      hc.1.nco, hc.1.disj, hc.1.nc⟩, hc.2.1⟩

theorem runOps_inv (fuel : Nat) (ops : List Op) :
    ∀ (b b1 : Book), runOps fuel b ops = some b1 → Inv b →
      Inv b1 ∧ Frozen b.store b1.store := by
  induction ops with
  | nil =>
    intro b b1 h hi
    rw [runOps] at h
    cases h
    exact ⟨hi, Frozen_refl _⟩
  | cons op ops ih =>
    intro b b1 h hi
    rw [runOps] at h
    cases hs : step fuel b op with
    | none => rw [hs] at h; cases h
    | some b2 =>
      rw [hs] at h
      obtain ⟨h1, h2⟩ := step_inv fuel b op b2 hs hi
      obtain ⟨h3, h4⟩ := ih b2 b1 h h1
      exact ⟨h3, Frozen_trans h2 h4⟩

theorem Inv_empty (sym : String) : Inv (emptyBook sym) := by
  refine ⟨?_, ?_, ?_, ?_, ?_, ?_, ?_, ?_, ?_⟩
  · intro k o hk; cases hk
  · intro k o hk; cases hk
  · intro k hk; cases hk
  · intro k hk; exact absurd hk InLvls_nil
  · intro k hk; exact absurd hk InLvls_nil
  · intro k hk; cases hk
  · intro k o hk; cases hk
  · intro k hk; exact absurd hk InLvls_nil
  · exact True.intro

theorem run_inv (fuel : Nat) (sym : String) (ops : List Op) (b : Book)
    (h : run fuel sym ops = some b) : Inv b :=
  (runOps_inv fuel ops _ b h (Inv_empty sym)).1

/-- Total filled quantity over all orders of one side held in the heap. -/
def sumFilledSide (b : Book) (s : Side) : ℚ :=
  (b.store.filter (fun p => decide (p.2.side = s))).foldl (fun a p => a + p.2.filled) 0

/-! ### Claims -/

/-- C1: for every order book (any symbol) and every sequence of admit and
cancel operations that runs to completion, once the final call returns either
at least one side of the book is empty or the best bid price is strictly less
than the best ask price (`NoCross`) — a crossed book never persists once
control returns to the caller. -/
theorem claim_C1_no_crossed_book (fuel : Nat) (sym : String) (ops : List Op) (b : Book)
    (h : run fuel sym ops = some b) : NoCross b :=
  (run_inv fuel sym ops b h).nc

def c1Ops : List Op := [.add .buy "S" 100 1, .add .sell "S" 101 1]

def c1Book : Book := (run 20 "S" c1Ops).getD (emptyBook "S")

theorem claim_C1_witness : NoCross c1Book :=
  claim_C1_no_crossed_book 20 "S" c1Ops c1Book (by with_unfolding_all rfl)

/-- C2, failing input: admit Buy 1.0@100, cancel it, then admit Sell 1.0@90.
`CancelOrder` leaves the cancelled buy in its level queue and
`processLevelMatch` ignores the failed fill on it, so the sell is filled 1.0
against nothing: total filled over buys is 0 while total filled over sells is
1 — conservation is violated. -/
theorem claim_C2_conservation_violated :
    (run 20 "S" [.add .buy "S" 100 1, .cancel 0, .add .sell "S" 90 1]).map
        (fun b => (sumFilledSide b .buy, sumFilledSide b .sell)) =
      some (0, 1) ∧ (0 : ℚ) ≠ 1 := ⟨by with_unfolding_all rfl, by norm_num⟩

/-- C3, failing input: admit Buy 1.0@50000 then cancel it.  The order's status
does become Cancelled, but it is not removed from its level queue, the level is
not pruned, and `GetBestBid` still succeeds with price 50000 and quantity 1.0
instead of failing with NoLiquidity. -/
theorem claim_C3_cancel_leaves_queue :
    (run 20 "S" [.add .buy "S" 50000 1, .cancel 0]).map
        (fun b => ((b.store.getO 0).status, b.buyLevels, GetBestBid b)) =
      some (.cancelled, [⟨50000, [0]⟩], some (50000, 1)) := by with_unfolding_all rfl

/-- C4, counterexample: `fill 2` on a fresh quantity-1 order fails with
Overfill, yet the order is mutated: `filled` is already 2 and `updatedAt` has
advanced — the failed call does not leave the order unchanged. -/
theorem claim_C4_counterexample :
    ((Order.fill ⟨0, .buy, "S", 100, 1, 0, .new, 0, 0⟩ 2 7).2 = some .overfill) ∧
      (Order.fill ⟨0, .buy, "S", 100, 1, 0, .new, 0, 0⟩ 2 7).1 ≠
        ⟨0, .buy, "S", 100, 1, 0, .new, 0, 0⟩ ∧
      (Order.fill ⟨0, .buy, "S", 100, 1, 0, .new, 0, 0⟩ 2 7).1.filled = 2 ∧
      (Order.fill ⟨0, .buy, "S", 100, 1, 0, .new, 0, 0⟩ 2 7).1.updatedAt = 7 := by
  with_unfolding_all decide

/-- C4, amended: a `fill(qty)` call that fails with InvalidFill or
AlreadyCancelled leaves the order completely unchanged; a call that fails with
Overfill leaves the status unchanged but has already increased `filled` by
`qty` and stamped `updatedAt` (the overfill check runs after the mutation). -/
theorem claim_C4_amended (o : Order) (q : ℚ) (now : Nat) (e : FillErr)
    (h : (o.fill q now).2 = some e) :
    ((e = .invalidFill ∨ e = .alreadyCancelled) → (o.fill q now).1 = o) ∧
      (e = .overfill → (o.fill q now).1 =
          { o with filled := o.filled + q, updatedAt := now } ∧
        ((o.fill q now).1).status = o.status) := by
  unfold Order.fill at h ⊢
  split_ifs at h ⊢ with h1 h2 h3
  · have he2 : some FillErr.invalidFill = some e := h
    injection he2 with he3
    subst he3
    exact ⟨fun _ => rfl, fun he => by cases he⟩
  · have he2 : some FillErr.alreadyCancelled = some e := h
    injection he2 with he3
    subst he3
    exact ⟨fun _ => rfl, fun he => by cases he⟩
  · have he2 : some FillErr.overfill = some e := h
    injection he2 with he3
    subst he3
    refine ⟨?_, fun _ => ⟨rfl, rfl⟩⟩
    rintro (he | he) <;> cases he

def c4Order : Order := ⟨0, .buy, "S", 100, 1, 0, .new, 0, 0⟩

theorem claim_C4_amended_witness :
    (c4Order.fill 2 7).1 = { c4Order with filled := c4Order.filled + 2, updatedAt := 7 } ∧
      ((c4Order.fill 2 7).1).status = c4Order.status :=
  (claim_C4_amended c4Order 2 7 .overfill (by with_unfolding_all rfl)).2 rfl

/-- C5, counterexample: admit Buy 1.0@50000 then Sell 1.0@50000.  The sell
(id 1) is fully consumed during its own admission and ends Filled, but the
order index does not map its id and `GetOrder` fails for it — refuting both
"remains queryable by id via getOrder" and "orderIndex still maps its id to
its Filled value". -/
theorem claim_C5_counterexample :
    (run 20 "S" [.add .buy "S" 50000 1, .add .sell "S" 50000 1]).map
        (fun b => ((b.store.getO 1).status, decide (1 ∈ b.om), GetOrder b 1)) =
      some (.filled, false, none) := by with_unfolding_all rfl

/-- C5, amended: an order fully consumed during its own admission (its status
is already Filled when `tryMatch` returns) is inserted into neither side index
nor the order index, and a subsequent `GetOrder` for its id fails. -/
theorem claim_C5_amended (fuel : Nat) (sym : String) (ops : List Op) (b : Book)
    (h : run fuel sym ops = some b)
    (side : Side) (sym2 : String) (p q : ℚ) (b1 : Book)
    (hstep : step fuel b (.add side sym2 p q) = some b1)
    (hfull : (tryLevels b.clock (decide (side = Side.buy))
        ⟨⟨b.nextId, side, sym2, p, q, 0, .new, b.clock, b.clock⟩, b.store, b.om, false⟩
        (oppLevels b side)).o.status = .filled) :
    b.nextId ∉ b1.om ∧ ¬ InLvls b1.buyLevels b.nextId ∧
      ¬ InLvls b1.sellLevels b.nextId ∧ GetOrder b1 b.nextId = none := by
  have hi := run_inv fuel sym ops b h
  rw [step] at hstep
  split_ifs at hstep with hpq
  · cases hstep
    exact ⟨fun hk => absurd (hi.omlt _ hk) (lt_irrefl _),
      fun hk => absurd (hi.blt _ hk) (lt_irrefl _),
      fun hk => absurd (hi.sllt _ hk) (lt_irrefl _),
      GetOrder_none hi.idc (fun k hk => ne_of_lt (hi.blt k hk))
        (fun k hk => ne_of_lt (hi.sllt k hk))⟩
  · push_neg at hpq
    dsimp only at hstep
    cases ha : AddOrder fuel b.clock b ⟨b.nextId, side, sym2, p, q, 0, .new, b.clock, b.clock⟩ with
    | none => rw [ha] at hstep; cases hstep
    | some r =>
      obtain ⟨b2, e⟩ := r
      rw [ha] at hstep
      dsimp only at hstep
      cases hstep
      have hfo : OrderInv ⟨b.nextId, side, sym2, p, q, 0, .new, b.clock, b.clock⟩ := by
        refine ⟨le_refl 0, le_of_lt hpq.2, hpq.2, ?_⟩
        constructor
        · intro hx; cases hx
        · intro hx; exact absurd hx (ne_of_lt hpq.2)
      have hADD := AddOrder_spec fuel b.clock b _ b2 e ha hi rfl rfl hfo
      obtain ⟨hom, hbuy, hsell⟩ := hADD.2.2 hfull
      exact ⟨fun hk => absurd (hi.omlt _ (hom _ hk)) (lt_irrefl _),
        fun hk => absurd (hi.blt _ (hbuy _ hk)) (lt_irrefl _),
        fun hk => absurd (hi.sllt _ (hsell _ hk)) (lt_irrefl _),
        GetOrder_none hADD.1.idc (fun k hk => ne_of_lt (hi.blt k (hbuy k hk)))
          (fun k hk => ne_of_lt (hi.sllt k (hsell k hk)))⟩

def c5Book : Book := (run 20 "S" [.add .buy "S" 50000 1]).getD (emptyBook "S")

def c5Book2 : Book := (step 20 c5Book (.add .sell "S" 50000 1)).getD (emptyBook "S")

theorem claim_C5_amended_witness :
    c5Book.nextId ∉ c5Book2.om ∧ ¬ InLvls c5Book2.buyLevels c5Book.nextId ∧
      ¬ InLvls c5Book2.sellLevels c5Book.nextId ∧ GetOrder c5Book2 c5Book.nextId = none :=
  claim_C5_amended 20 "S" [.add .buy "S" 50000 1] c5Book (by with_unfolding_all rfl)
    .sell "S" 50000 1 c5Book2 (by with_unfolding_all rfl) (by with_unfolding_all rfl)

/-- C6: every order reachable through any completed sequence of book
operations satisfies `0 ≤ filled ≤ quantity`, and its status is Filled exactly
when `filled = quantity`. -/
theorem claim_C6_no_overfill (fuel : Nat) (sym : String) (ops : List Op) (b : Book)
    (h : run fuel sym ops = some b) (k : Nat) (o : Order)
    (ho : b.store.get k = some o) :
    0 ≤ o.filled ∧ o.filled ≤ o.quantity ∧
      (o.status = .filled ↔ o.filled = o.quantity) := by
  obtain ⟨i0, i1, _, i3⟩ := (run_inv fuel sym ops b h).sinv k o ho
  exact ⟨i0, i1, i3⟩

def c6Ops : List Op := [.add .buy "S" 100 2, .add .sell "S" 100 1]

def c6Book : Book := (run 20 "S" c6Ops).getD (emptyBook "S")

def c6Order : Order := c6Book.store.getO 0

theorem claim_C6_witness :
    0 ≤ c6Order.filled ∧ c6Order.filled ≤ c6Order.quantity ∧
      (c6Order.status = .filled ↔ c6Order.filled = c6Order.quantity) :=
  claim_C6_no_overfill 20 "S" c6Ops c6Book (by with_unfolding_all rfl) 0 c6Order
    (by with_unfolding_all rfl)

/-- C7: Cancelled is terminal.  If an order in a reachable book is Cancelled,
then after any further completed sequence of operations its heap entry is
bit-for-bit unchanged (same filled amount, still Cancelled), and any direct
`fill` call on it returns it unchanged. -/
theorem claim_C7_cancelled_terminal (fuel : Nat) (sym : String) (ops more : List Op)
    (b b2 : Book) (h : run fuel sym ops = some b) (k : Nat) (o : Order)
    (ho : b.store.get k = some o) (hc : o.status = .cancelled)
    (h2 : runOps fuel b more = some b2) :
    b2.store.get k = some o ∧ ∀ (q : ℚ) (now : Nat), (o.fill q now).1 = o := by
  have hi := run_inv fuel sym ops b h
  have hfr := (runOps_inv fuel more b b2 h2 hi).2
  exact ⟨hfr k o ho hc, fun q now => fill_cancelled hc q now⟩

def c7Ops : List Op := [.add .buy "S" 100 1, .cancel 0]

def c7Book : Book := (run 20 "S" c7Ops).getD (emptyBook "S")

def c7Order : Order := c7Book.store.getO 0

def c7More : List Op := [.add .sell "S" 90 1]

def c7Book2 : Book := (runOps 20 c7Book c7More).getD (emptyBook "S")

theorem claim_C7_witness :
    c7Book2.store.get 0 = some c7Order ∧ (c7Order.fill 1 99).1 = c7Order :=
  ⟨(claim_C7_cancelled_terminal 20 "S" c7Ops c7More c7Book c7Book2
      (by with_unfolding_all rfl) 0 c7Order (by with_unfolding_all rfl)
      (by with_unfolding_all rfl) (by with_unfolding_all rfl)).1,
   (claim_C7_cancelled_terminal 20 "S" c7Ops c7More c7Book c7Book2
      (by with_unfolding_all rfl) 0 c7Order (by with_unfolding_all rfl)
      (by with_unfolding_all rfl) (by with_unfolding_all rfl)).2 1 99⟩

/-- C8, failing input: admit Buy A 1.0@100 (id 0), Buy 1.0@110 (id 1), Buy B
1.0@100 (id 2), then Sell 2.0@100.  `findOrCreateBuyLevel` fails to find the
existing non-head level at 100 and splices a duplicate level in front of it,
so B (admitted later at the same price and side as A) is fully filled while A
receives nothing — FIFO fairness is violated. -/
theorem claim_C8_fifo_violated :
    (run 20 "S" [.add .buy "S" 100 1, .add .buy "S" 110 1, .add .buy "S" 100 1,
        .add .sell "S" 100 2]).map
        (fun b => ((b.store.getO 0).side, (b.store.getO 0).price,
          (b.store.getO 0).filled, (b.store.getO 0).status,
          (b.store.getO 2).side, (b.store.getO 2).price,
          (b.store.getO 2).filled, (b.store.getO 2).status, b.buyLevels)) =
      some (.buy, 100, 0, .new, .buy, 100, 1, .filled,
        [⟨110, [1]⟩, ⟨100, [2]⟩, ⟨100, [0]⟩]) := by with_unfolding_all rfl

/-- C9: if `CancelOrder` succeeds on a book, cancelling the same id again
fails with OrderNotFound (not a state-conflict error), because the successful
cancellation deleted the id from the `ob.orders` index. -/
theorem claim_C9_double_cancel (now now2 : Nat) (b b1 : Book) (oid : Nat)
    (h : CancelOrder now b oid = (b1, none)) :
    CancelOrder now2 b1 oid = (b1, some .orderNotFound) := by
  unfold CancelOrder at h
  split_ifs at h with hmem
  · cases hg : b.store.get oid with
    | none =>
      rw [hg] at h
      injection h with h1 h2
      cases h2
    | some o =>
      rw [hg] at h
      try dsimp only at h
      by_cases hf : o.status = .filled
      · rw [show o.cancel now = (o, false) from by unfold Order.cancel; rw [if_pos hf]] at h
        injection h with h1 h2
        cases h2
      · rw [cancel_fst_of_ne_filled hf] at h
        injection h with h1 h2
        subst h1
        unfold CancelOrder
        rw [if_neg]
        exact fun hk => not_mem_eraseId hk
  · injection h with h1 h2
    cases h2

def c9Book : Book := (run 20 "S" [.add .buy "S" 100 1]).getD (emptyBook "S")

def c9Book1 : Book := (CancelOrder 5 c9Book 0).1

theorem claim_C9_witness :
    CancelOrder 6 c9Book1 0 = (c9Book1, some .orderNotFound) :=
  claim_C9_double_cancel 5 6 c9Book c9Book1 0 (by with_unfolding_all rfl)

/-- C10: a reachable book state in which `GetBestBid` succeeds and returns the
stale best level's price with aggregate remaining quantity 0: admit Buy
1.0@50000 then Sell 1.0@50000; the resting buy is exactly filled during
`tryMatch` but stays in its level queue (the `match` sweep never runs, the
sell side being empty), so `GetBestBid` returns (50000, 0) instead of
NoLiquidity. -/
theorem claim_C10_stale_best_bid :
    (run 20 "S" [.add .buy "S" 50000 1, .add .sell "S" 50000 1]).map
        (fun b => (GetBestBid b, (b.store.getO 0).status, b.buyLevels)) =
      some (some (50000, 0), .filled, [⟨50000, [0]⟩]) := by with_unfolding_all rfl

end MachEngine
